import Mathlib

/-!
Verification development for the Advanced MIDI Keyboard Simulator
(`advanced_midi_keyboard.py`).  The definitions below are a shallow
embedding of the program's data model and algorithms:

* association lists model Python `dict`s (`alookup`/`aset`/`aerase`),
* `Msg`/`MsgKind` model parsed mido messages,
* `compileStep`/`compileFrom`/`compileFile` model the tempo-resolving
  loop of `MidiLoadingThread.run` (lines 150-157),
* `pressKey`/`releaseKey`/`pressSpacePlayer`/`releaseSpacePlayer`/
  `releaseAllKeys`/`processMsg` model the key-emulation state machine of
  `MidiPlayerThread` (lines 214-255); physical key actions performed via
  pynput are recorded as an explicit `KeyAction` trace,
* `runStep`/`runAll` model the exit-path structure of
  `MidiPlayerThread.run` (lines 185-213) with the cooperative
  `is_running` flag supplied externally at each check point,
* `notesByTime`/`renderGroup`/`generateText` model
  `MidiKeyboardApp.generate_and_display_text` (lines 483-501),
* `reassignKey` models `KeyMappingDialog.table_key_press_event`
  (lines 638-645).

Real-time quantities (wall-clock sleeps, thread scheduling) are not
modelled; Python float timestamps are modelled as rationals, which is
faithful to every ordering/grouping property handled here.
-/

namespace MidiSim

/-! ## Association lists: the model of Python `dict` -/

/-- Lookup in an association list (first matching key wins), the model of
`d.get(k)` / `k in d`. -/
def alookup {κ α : Type} [DecidableEq κ] : List (κ × α) → κ → Option α
  | [], _ => none
  | p :: rest, k => if p.1 = k then some p.2 else alookup rest k

/-- `d[k] = v` on a Python dict: update the entry in place if the key is
present, otherwise append a new entry (dicts preserve insertion order). -/
def aset {κ α : Type} [DecidableEq κ] : List (κ × α) → κ → α → List (κ × α)
  | [], k, v => [(k, v)]
  | p :: rest, k, v => if p.1 = k then (k, v) :: rest else p :: aset rest k v

/-- `del d[k]` / `d.pop(k)` on a Python dict: drop the (unique) entry with
the given key. -/
def aerase {κ α : Type} [DecidableEq κ] : List (κ × α) → κ → List (κ × α)
  | [], _ => []
  | p :: rest, k => if p.1 = k then rest else p :: aerase rest k

/-! ## MIDI messages -/

/-- The kinds of parsed MIDI messages the program inspects.  `setTempo`
and `otherMeta` are meta messages, everything else is a channel message
(mido's `msg.is_meta`). -/
inductive MsgKind : Type
  | noteOn (note vel : ℕ)
  | noteOff (note : ℕ)
  | controlChange (control value : ℕ)
  | setTempo (tempo : ℕ)
  | otherMeta
  | otherMsg
  deriving DecidableEq

/-- One message of the merged track stream: delta time in ticks
(`msg.time`) plus its kind. -/
structure Msg : Type where
  time : ℤ
  kind : MsgKind
  deriving DecidableEq

/-- mido's `msg.is_meta`. -/
def Msg.isMeta (m : Msg) : Bool :=
  match m.kind with
  | .setTempo _ => true
  | .otherMeta => true
  | _ => false

/-! ## The key mapping tables (source lines 20-34) -/

/-- `DEFAULT_NOTE_MAP`, transcribed entry for entry in source order. -/
def defaultNoteMap : List (ℕ × String) :=
  [(36, "2"), (37, "!"), (38, "_"), (39, "@"), (40, "3"), (41, "4"),
   (42, "$"), (43, "5"), (44, "%"), (45, "6"), (46, "^"), (47, "7"),
   (48, "8"), (49, "*"), (50, "9"), (51, "("), (52, "0"), (53, "q"),
   (54, "Q"), (55, "w"), (56, "W"), (57, "e"), (58, "E"), (59, "r"),
   (60, "t"), (61, "T"), (62, "y"), (63, "Y"), (64, "u"), (65, "i"),
   (66, "I"), (67, "o"), (68, "O"), (69, "p"), (70, "P"), (71, "a"),
   (72, "s"), (73, "S"), (74, "d"), (75, "D"), (76, "f"), (77, "g"),
   (78, "G"), (79, "h"), (80, "H"), (81, "j"), (82, "J"), (83, "k"),
   (84, "l"), (85, "L"), (86, "z"), (87, "Z"), (88, "x"), (89, "c"),
   (90, "C"), (91, "v"), (92, "V"), (93, "b"), (94, "B"), (95, "n"),
   (96, "m"), (97, "_"), (98, "u"), (99, "_"), (100, "o"), (101, "_"),
   (102, "s"), (103, "f"), (104, "h"), (105, "j"), (106, "_")]

/-- `SHIFT_MAP`: characters that require Shift, mapped to their base key. -/
def shiftMap : List (String × String) :=
  [("!", "1"), ("@", "2"), ("$", "4"), ("%", "5"), ("^", "6"), ("*", "8"),
   ("(", "9"), ("_", "-"), ("Q", "q"), ("W", "w"), ("E", "e"), ("T", "t"),
   ("Y", "y"), ("I", "i"), ("O", "o"), ("P", "p"), ("S", "s"), ("D", "d"),
   ("G", "g"), ("H", "h"), ("J", "j"), ("L", "l"), ("Z", "z"), ("C", "c"),
   ("V", "v"), ("B", "b")]

/-! ## The tempo-resolved event compiler (`MidiLoadingThread.run`) -/

/-- mido's `tick2second(tick, ticks_per_beat, tempo)` =
`tick * (tempo * 1e-6 / ticks_per_beat)` seconds, over ℚ. -/
def tick2second (ticks : ℤ) (tpb tempo : ℕ) : ℚ :=
  ((ticks : ℚ) * (tempo : ℚ)) / ((tpb : ℚ) * 1000000)

/-- The loop state of `MidiLoadingThread.run`: `absolute_time`, current
`tempo`, the `events` list built so far, and the `has_sustain` flag. -/
structure CompileState : Type where
  absoluteTime : ℚ
  tempo : ℕ
  events : List (ℚ × Msg)
  hasSustain : Bool
  deriving DecidableEq

/-- One iteration of the compilation loop (source lines 153-157):
advance `absolute_time` by the delta converted with the current tempo;
then, if the message is a `set_tempo` meta event, update the tempo;
then, if the message is not meta, append `(absolute_time, msg)` to the
events and record whether it is a sustain control change (control 64). -/
def compileStep (tpb : ℕ) (st : CompileState) (m : Msg) : CompileState :=
  let a := st.absoluteTime + tick2second m.time tpb st.tempo
  let tempo :=
    if m.isMeta then
      match m.kind with
      | .setTempo t => t
      | _ => st.tempo
    else st.tempo
  if m.isMeta then
    { st with absoluteTime := a, tempo := tempo }
  else
    { absoluteTime := a, tempo := tempo,
      events := st.events ++ [(a, m)],
      hasSustain := st.hasSustain ||
        (match m.kind with
         | .controlChange c _ => decide (c = 64)
         | _ => false) }

/-- Run the compilation loop over the merged message stream. -/
def compileFrom (tpb : ℕ) (st : CompileState) : List Msg → CompileState
  | [] => st
  | m :: rest => compileFrom tpb (compileStep tpb st m) rest

/-- `mid.ticks_per_beat if mid.ticks_per_beat > 0 else 480`
(source line 151). -/
def effectiveTpb (raw : ℤ) : ℕ :=
  if 0 < raw then raw.toNat else 480

/-- The whole of the compilation part of `MidiLoadingThread.run`
(source lines 150-157): initial `absolute_time = 0.0`, default tempo
500000 µs/beat, empty event list, `has_sustain = False`. -/
def compileFile (rawTpb : ℤ) (msgs : List Msg) : CompileState :=
  compileFrom (effectiveTpb rawTpb)
    { absoluteTime := 0, tempo := 500000, events := [], hasSustain := false } msgs

/-- Spec-side rendition of the compiler, following the words of spec
§4.1 for the tempo resolution claim: starting from accumulated time `a`
and current tempo `tempo`, each message's tick delta is converted to
seconds using the tempo in effect *before* that message; a tempo-change
meta event updates the tempo only after its own delta conversion, so it
affects subsequent deltas only; meta events are excluded from the output
while every non-meta message is emitted with the accumulated time. -/
def specTempoResolve (tpb : ℕ) (a : ℚ) (tempo : ℕ) : List Msg → List (ℚ × Msg)
  | [] => []
  | m :: rest =>
      let a2 := a + tick2second m.time tpb tempo
      let tempo2 :=
        match m.kind with
        | .setTempo t => t
        | _ => tempo
      (if m.isMeta then [] else [(a2, m)]) ++ specTempoResolve tpb a2 tempo2 rest

/-- Non-decreasing list of rationals: position `i` is at most
position `i + 1`, for every consecutive pair. -/
def nondecQ : List ℚ → Prop
  | [] => True
  | [_] => True
  | a :: b :: rest => a ≤ b ∧ nondecQ (b :: rest)

/-! ## The key-emulation state machine (`MidiPlayerThread`) -/

/-- A physical key action performed through the pynput `Controller`. -/
inductive KeyAction : Type
  | press (c : String)
  | release (c : String)
  | pressShift
  | releaseShift
  | pressSpace
  | releaseSpace
  deriving DecidableEq

/-- Mutable per-session state of `MidiPlayerThread`: `active_notes`
(visual-note ↦ velocity; keys are transposed note numbers, hence
integers), `pressed_keys` (originating note ↦ base character actually
held down) and `is_space_pressed`. -/
structure PlayerState : Type where
  activeNotes : List (ℤ × ℕ)
  pressedKeys : List (ℕ × String)
  isSpacePressed : Bool
  deriving DecidableEq

/-- The state set up in `MidiPlayerThread.__init__` (line 184). -/
def initPlayerState : PlayerState :=
  { activeNotes := [], pressedKeys := [], isSpacePressed := false }

/-- `MidiPlayerThread._press_key` (lines 225-233).  `not char` in Python
is true for both a missing entry and the empty string.  A character in
`SHIFT_MAP` is pressed as
`with keyboard.pressed(Key.shift): keyboard.press(SHIFT_MAP[char])`,
i.e. Shift is pressed, the base character is pressed, and Shift is
released again when the `with` block exits; the base character is
recorded in `pressed_keys`. -/
def pressKey (noteMap : List (ℕ × String)) (s : PlayerState) (note : ℕ) :
    PlayerState × List KeyAction :=
  match alookup noteMap note with
  | none => (s, [])
  | some char =>
    if char = "" then (s, [])
    else if (alookup s.pressedKeys note).isSome then (s, [])
    else
      match alookup shiftMap char with
      | some base =>
          ({ s with pressedKeys := s.pressedKeys ++ [(note, base)] },
           [.pressShift, .press base, .releaseShift])
      | none =>
          ({ s with pressedKeys := s.pressedKeys ++ [(note, char)] },
           [.press char])

/-- `MidiPlayerThread._release_key` (lines 234-237). -/
def releaseKey (s : PlayerState) (note : ℕ) : PlayerState × List KeyAction :=
  match alookup s.pressedKeys note with
  | none => (s, [])
  | some c => ({ s with pressedKeys := aerase s.pressedKeys note }, [.release c])

/-- `MidiPlayerThread._press_space` (lines 238-241). -/
def pressSpacePlayer (s : PlayerState) : PlayerState × List KeyAction :=
  if s.isSpacePressed then (s, [])
  else ({ s with isSpacePressed := true }, [.pressSpace])

/-- `MidiPlayerThread._release_space` (lines 242-245). -/
def releaseSpacePlayer (s : PlayerState) : PlayerState × List KeyAction :=
  if s.isSpacePressed then ({ s with isSpacePressed := false }, [.releaseSpace])
  else (s, [])

/-- `MidiPlayerThread._release_all_keys` (lines 249-255): release every
recorded base character, release Shift unconditionally, release the
space key if held, then clear all bookkeeping (and publish an empty
active-note snapshot). -/
def releaseAllKeys (s : PlayerState) : PlayerState × List KeyAction :=
  let keyActs := s.pressedKeys.map (fun p => KeyAction.release p.2)
  let r := releaseSpacePlayer s
  ({ r.1 with pressedKeys := [], activeNotes := [] },
   keyActs ++ [KeyAction.releaseShift] ++ r.2)

/-- `MidiPlayerThread._process_midi_message` (lines 214-224) at a given
transpose value: sustain control changes toggle the space key (value
≥ 64 releases it, value < 64 presses it — the source's inverted
convention); note messages update the visual snapshot at key
`msg.note + transpose` while `_press_key`/`_release_key` are called with
the *original* `msg.note`. -/
def processMsg (noteMap : List (ℕ × String)) (transpose : ℤ)
    (s : PlayerState) : MsgKind → PlayerState × List KeyAction
  | .controlChange c v =>
      if c = 64 then
        if 64 ≤ v then releaseSpacePlayer s else pressSpacePlayer s
      else (s, [])
  | .noteOn n v =>
      let vn : ℤ := (n : ℤ) + transpose
      if 0 < v then
        pressKey noteMap { s with activeNotes := aset s.activeNotes vn v } n
      else
        releaseKey
          { s with activeNotes :=
              if (alookup s.activeNotes vn).isSome then aerase s.activeNotes vn
              else s.activeNotes } n
  | .noteOff n =>
      let vn : ℤ := (n : ℤ) + transpose
      releaseKey
        { s with activeNotes :=
            if (alookup s.activeNotes vn).isSome then aerase s.activeNotes vn
            else s.activeNotes } n
  | _ => (s, [])

/-- Process a list of `(transpose, message)` pairs from a given state,
concatenating the emitted physical key actions. -/
def processAllFrom (noteMap : List (ℕ × String)) (s : PlayerState) :
    List (ℤ × MsgKind) → PlayerState × List KeyAction
  | [] => (s, [])
  | p :: rest =>
      let r := processMsg noteMap p.1 s p.2
      let r2 := processAllFrom noteMap r.1 rest
      (r2.1, r.2 ++ r2.2)

/-- Process a message sequence from the freshly initialised player. -/
def processAll (noteMap : List (ℕ × String)) (msgs : List (ℤ × MsgKind)) :
    PlayerState × List KeyAction :=
  processAllFrom noteMap initPlayerState msgs

/-- Number of occurrences of one key action in a trace. -/
def kcount (a : KeyAction) : List KeyAction → ℕ
  | [] => 0
  | b :: rest => (if b = a then 1 else 0) + kcount a rest

/-- Net number of times character `c` is held down after the trace:
presses of `c` minus releases of `c`. -/
def physCount (tr : List KeyAction) (c : String) : ℤ :=
  (kcount (.press c) tr : ℤ) - (kcount (.release c) tr : ℤ)

/-- Net Shift presses in a trace. -/
def shiftBalance (tr : List KeyAction) : ℤ :=
  (kcount .pressShift tr : ℤ) - (kcount .releaseShift tr : ℤ)

/-- Net space presses in a trace. -/
def spaceBalance (tr : List KeyAction) : ℤ :=
  (kcount .pressSpace tr : ℤ) - (kcount .releaseSpace tr : ℤ)

/-- Number of `pressed_keys` entries whose recorded base character is
`c`. -/
def mcount (c : String) : List (ℕ × String) → ℕ
  | [] => 0
  | p :: rest => (if p.2 = c then 1 else 0) + mcount c rest

/-- Some currently pressed note requires a shifted character: a
`pressed_keys` entry whose note maps to a character of `SHIFT_MAP`. -/
def shiftRequired (noteMap : List (ℕ × String)) (s : PlayerState) : Prop :=
  ∃ p ∈ s.pressedKeys, ∃ ch, alookup noteMap p.1 = some ch ∧
    (alookup shiftMap ch).isSome

/-- The key-state safety property exactly as the claim states it: after
every prefix of the message sequence (i.e. at every point between
messages), each base character is physically held at most once
concurrently, and Shift is physically held if and only if at least one
currently-active note requires a shifted character. -/
def KeyStateSafe (noteMap : List (ℕ × String)) (msgs : List (ℤ × MsgKind)) : Prop :=
  ∀ pre suf, msgs = pre ++ suf →
    (∀ c, physCount (processAll noteMap pre).2 c ≤ 1) ∧
    (0 < shiftBalance (processAll noteMap pre).2 ↔
      shiftRequired noteMap (processAll noteMap pre).1)

/-- The cumulative invariant actually maintained by the key-emulation
state machine. -/
def PlayerInv (s : PlayerState) (tr : List KeyAction) : Prop :=
  shiftBalance tr = 0 ∧
  (∀ c, physCount tr c = (mcount c s.pressedKeys : ℤ)) ∧
  (s.pressedKeys.map Prod.fst).Nodup ∧
  spaceBalance tr = (if s.isSpacePressed then 1 else 0)

/-- The space-key handling at the start of playback (lines 181, 184 and
192): `is_space_pressed` starts `False`, `default_sustain_on` is
`not has_sustain`, and `run` executes
`if self.default_sustain_on: self._release_space()` once before the
first event is dispatched. -/
def startupSpace (hasSustain : Bool) : PlayerState × List KeyAction :=
  if !hasSustain then releaseSpacePlayer initPlayerState
  else (initPlayerState, [])

/-- A sustain control-change that *presses* the space key: controller 64
with value < 64 (pedal up, in the source's inverted convention). -/
def isSustainPressMsg : MsgKind → Bool
  | .controlChange c v => decide (c = 64) && decide (v < 64)
  | _ => false

/-! ## Exit-path structure of `MidiPlayerThread.run` (lines 185-213) -/

/-- Observable run-loop events: a countdown/"Playing..." status message,
the dispatch of event `i`, the `_release_all_keys()` call, and the
`finished` signal. -/
inductive RunEvent : Type
  | statusMsg
  | dispatched (i : ℕ)
  | releasedAll
  | finishedSig
  deriving DecidableEq

/-- Control position of `run` at its `is_running` check points:
`countdown i` is the check at the top of the `for i in range(3, 0, -1)`
body (line 187), `preplay` is the check after the countdown (line 189),
`playing idx` is the check of the main loop with `event_index = idx`
(line 194, together with the checks at lines 206-208 which also lead to
the common exit at line 213), and `done` is after `run` returned. -/
inductive RunPhase : Type
  | countdown (i : ℕ)
  | preplay
  | playing (idx : ℕ)
  | done
  deriving DecidableEq

/-- A run-loop configuration: control position plus emitted events. -/
structure RunState : Type where
  phase : RunPhase
  trace : List RunEvent
  deriving DecidableEq

/-- One step of `run` for a playback of `n` compiled events, given the
value of `is_running` observed at the current check point.  A `False`
during the countdown returns immediately with only `finished` emitted
(lines 187, 189); the main loop, whether it ends by exhausting the
events or by observing `is_running == False`, always falls through to
`self._release_all_keys(); self.finished.emit()` (line 213). -/
def runStep (n : ℕ) (s : RunState) (running : Bool) : RunState :=
  match s.phase with
  | .countdown i =>
      if running then
        { phase := if i ≤ 1 then .preplay else .countdown (i - 1),
          trace := s.trace ++ [.statusMsg] }
      else { phase := .done, trace := s.trace ++ [.finishedSig] }
  | .preplay =>
      if running then { phase := .playing 0, trace := s.trace ++ [.statusMsg] }
      else { phase := .done, trace := s.trace ++ [.finishedSig] }
  | .playing idx =>
      if running ∧ idx < n then
        { phase := .playing (idx + 1), trace := s.trace ++ [.dispatched idx] }
      else
        { phase := .done, trace := s.trace ++ [.releasedAll, .finishedSig] }
  | .done => s

/-- Run the worker from its start (`for i in range(3, 0, -1)`) under a
given sequence of `is_running` observations. -/
def runAll (n : ℕ) (flags : List Bool) : RunState :=
  flags.foldl (runStep n) { phase := .countdown 3, trace := [] }

/-- Number of occurrences of one run event in a trace. -/
def rcount (e : RunEvent) : List RunEvent → ℕ
  | [] => 0
  | b :: rest => (if b = e then 1 else 0) + rcount e rest

/-- Invariant of the run loop tying the control position to the emitted
trace: before the main loop only status messages were emitted; inside
the main loop neither `releasedAll` nor `finishedSig` has been emitted;
once `done`, the trace ends in `finishedSig`, preceded by exactly one
`releasedAll` if and only if the main loop was entered. -/
def runInv (s : RunState) : Prop :=
  match s.phase with
  | .done =>
      (∃ pre, s.trace = pre ++ [.releasedAll, .finishedSig] ∧
        rcount .releasedAll pre = 0 ∧ rcount .finishedSig pre = 0) ∨
      ((∀ i, RunEvent.dispatched i ∉ s.trace) ∧
        rcount .releasedAll s.trace = 0 ∧
        ∃ pre, s.trace = pre ++ [.finishedSig] ∧ rcount .finishedSig pre = 0)
  | .playing _ =>
      rcount .releasedAll s.trace = 0 ∧ rcount .finishedSig s.trace = 0
  | _ =>
      rcount .releasedAll s.trace = 0 ∧ rcount .finishedSig s.trace = 0 ∧
      (∀ i, RunEvent.dispatched i ∉ s.trace)

/-! ## Derived-text export (`generate_and_display_text`, lines 483-501) -/

/-- `notes_by_time[timestamp].append(note)` on a `defaultdict(list)`:
append to the existing group of that timestamp, otherwise add a new
group at the end (insertion order of keys is preserved). -/
def addToGroup (d : List (ℚ × List ℕ)) (t : ℚ) (n : ℕ) : List (ℚ × List ℕ) :=
  match d with
  | [] => [(t, [n])]
  | g :: rest => if g.1 = t then (g.1, g.2 ++ [n]) :: rest
                 else g :: addToGroup rest t n

/-- The grouping loop: collect the notes of every `note_on` with
positive velocity, keyed by exact onset timestamp. -/
def notesByTimeFrom (d : List (ℚ × List ℕ)) :
    List (ℚ × Msg) → List (ℚ × List ℕ)
  | [] => d
  | e :: rest =>
      match e.2.kind with
      | .noteOn n v =>
          if 0 < v then notesByTimeFrom (addToGroup d e.1 n) rest
          else notesByTimeFrom d rest
      | _ => notesByTimeFrom d rest

/-- `notes_by_time` built from the compiled events. -/
def notesByTime (evs : List (ℚ × Msg)) : List (ℚ × List ℕ) :=
  notesByTimeFrom [] evs

/-- Strict lexicographic comparison of character lists (Python `<` on
strings: code-point order). -/
def charListLt : List Char → List Char → Bool
  | [], [] => false
  | [], _ :: _ => true
  | _ :: _, [] => false
  | a :: as, b :: bs => if a < b then true else if b < a then false else charListLt as bs

/-- Python `<` on strings. -/
def strLt (a b : String) : Bool := charListLt a.data b.data

/-- Python `<` on floats, modelled on ℚ. -/
def qLt (a b : ℚ) : Bool := decide (a < b)

/-- Stable insertion of `x` into an already sorted list: `x` goes after
every element not greater than it (matching Python's stable `sorted`). -/
def insertBy {α : Type} (lt : α → α → Bool) (x : α) : List α → List α
  | [] => [x]
  | y :: ys => if lt x y then x :: y :: ys else y :: insertBy lt x ys

/-- Insertion sort, ascending and stable — the model of `sorted(...)`. -/
def sortBy {α : Type} (lt : α → α → Bool) (l : List α) : List α :=
  l.foldl (fun acc x => insertBy lt x acc) []

/-- One timestamp group rendered to its output part (lines 493-499):
look up each note of the group, keeping only mapped ones; an empty
result is omitted (`continue`), a single character is emitted bare, two
or more are emitted as one bracketed cluster sorted ascending. -/
def renderGroup (noteMap : List (ℕ × String)) (ns : List ℕ) : Option String :=
  match ns.filterMap (fun n => alookup noteMap n) with
  | [] => none
  | [c] => some c
  | cs => some ("[" ++ String.join (sortBy strLt cs) ++ "]")

/-- The derived-text export of `generate_and_display_text`: group the
positive-velocity note-ons by onset timestamp, walk the group keys in
ascending order, render each group, and join the parts with single
spaces. -/
def generateText (noteMap : List (ℕ × String)) (evs : List (ℚ × Msg)) : String :=
  let d := notesByTime evs
  String.intercalate " "
    ((sortBy qLt (d.map Prod.fst)).filterMap
      (fun t => renderGroup noteMap ((alookup d t).getD [])))

/-- Spec-side helper: the onset timestamps of every velocity-positive
note-on event, in event order, with repetitions. -/
def onsetTimesRaw (evs : List (ℚ × Msg)) : List ℚ :=
  evs.filterMap (fun e =>
    match e.2.kind with
    | .noteOn _ v => if 0 < v then some e.1 else none
    | _ => none)

/-- Keep the first occurrence of each element, given the set already
seen. -/
def dedupFirstFrom (seen : List ℚ) : List ℚ → List ℚ
  | [] => []
  | t :: rest =>
      if t ∈ seen then dedupFirstFrom seen rest
      else t :: dedupFirstFrom (t :: seen) rest

/-- Spec-side helper: the notes of all velocity-positive note-ons whose
onset timestamp equals `t`, in event order. -/
def onsetNotes (evs : List (ℚ × Msg)) (t : ℚ) : List ℕ :=
  evs.filterMap (fun e =>
    match e.2.kind with
    | .noteOn n v => if 0 < v ∧ e.1 = t then some n else none
    | _ => none)

/-- Spec-side rendition of the derived-text export, following the words
of spec §6: a pure function of the compiled events and the key map that
walks the distinct onset timestamps of velocity-positive note-ons in
ascending order and renders, for each, the cluster of mapped characters
of the notes starting exactly then. -/
def specGenerateText (noteMap : List (ℕ × String)) (evs : List (ℚ × Msg)) : String :=
  String.intercalate " "
    ((sortBy qLt (dedupFirstFrom [] (onsetTimesRaw evs))).filterMap
      (fun t => renderGroup noteMap (onsetNotes evs t)))

/-- Combination of an already-grouped prefix with the notes still to be
grouped for one timestamp (used to relate the `defaultdict` grouping to
the spec-side filter): an existing group is extended, a new non-empty
group is created, and no group exists for an empty note list. -/
def mergeGroup (o : Option (List ℕ)) (l : List ℕ) : Option (List ℕ) :=
  match o with
  | some ns => some (ns ++ l)
  | none => if l = [] then none else some l

/-! ## The key-map editor (`KeyMappingDialog`, lines 638-653) -/

/-- `table_key_press_event` after a key press `c` on the row of `note`:
every other note currently mapped to `c` is cleared to the empty string
(the dialog's table always has a row for each map entry, so the
`get_row_for_note(num) != -1` guard always holds), then `c` is assigned
to `note`. -/
def reassignKey (m : List (ℕ × String)) (note : ℕ) (c : String) :
    List (ℕ × String) :=
  aset (m.map (fun p => if p.2 = c ∧ p.1 ≠ note then (p.1, "") else p)) note c

/-! ## Association-list lemmas -/

/-! ## Association-list lemmas -/

theorem alookup_eq_none {κ α : Type} [DecidableEq κ] (l : List (κ × α)) (k : κ) :
    alookup l k = none ↔ ∀ v, (k, v) ∉ l := by
  induction l with
  | nil => simp [alookup]
  | cons p rest ih =>
      simp only [alookup]
      by_cases h : p.1 = k
      · subst h
        simp only [if_pos rfl]
        constructor
        · intro hh
          exact absurd hh (by simp)
        · intro hh
          have h2 := hh p.2
          simp at h2
      · rw [if_neg h, ih]
        constructor
        · intro hv v hm
          rcases List.mem_cons.1 hm with hm1 | hm2
          · exact h (by rw [← hm1])
          · exact hv v hm2
        · intro hv v hm
          exact hv v (List.mem_cons_of_mem _ hm)

theorem alookup_mem {κ α : Type} [DecidableEq κ] {l : List (κ × α)} {k : κ} {v : α}
    (h : alookup l k = some v) : (k, v) ∈ l := by
  induction l with
  | nil => simp [alookup] at h
  | cons p rest ih =>
      by_cases hp : p.1 = k
      · obtain ⟨p1, p2⟩ := p
        simp only at hp
        subst hp
        have h2 : p2 = v := by simpa [alookup] using h
        subst h2
        exact List.mem_cons_self _ _
      · simp only [alookup, if_neg hp] at h
        exact List.mem_cons_of_mem _ (ih h)

theorem alookup_aset_self {κ α : Type} [DecidableEq κ] (l : List (κ × α)) (k : κ) (v : α) :
    alookup (aset l k v) k = some v := by
  induction l with
  | nil => simp [aset, alookup]
  | cons p rest ih =>
      by_cases h : p.1 = k
      · simp [aset, if_pos h, alookup]
      · simp only [aset, if_neg h, alookup, ih, if_neg h]

theorem alookup_aset_ne {κ α : Type} [DecidableEq κ] (l : List (κ × α)) (k k2 : κ) (v : α)
    (h : k2 ≠ k) : alookup (aset l k v) k2 = alookup l k2 := by
  induction l with
  | nil =>
      simp only [aset, alookup]
      rw [if_neg (fun hh => h (hh.symm))]
  | cons p rest ih =>
      by_cases hp : p.1 = k
      · simp only [aset, if_pos hp, alookup]
        rw [if_neg (fun hh => h (hh.symm)), if_neg (by rw [hp]; exact fun hh => h hh.symm)]
      · simp only [aset, if_neg hp, alookup, ih]

theorem alookup_aerase_ne {κ α : Type} [DecidableEq κ] (l : List (κ × α)) (k k2 : κ)
    (h : k2 ≠ k) : alookup (aerase l k) k2 = alookup l k2 := by
  induction l with
  | nil => simp [aerase]
  | cons p rest ih =>
      by_cases hp : p.1 = k
      · simp only [aerase, if_pos hp, alookup]
        rw [if_neg (by rw [hp]; exact fun hh => h hh.symm)]
      · simp only [aerase, if_neg hp, alookup, ih]

theorem aerase_map_fst_sublist {κ α : Type} [DecidableEq κ] (l : List (κ × α)) (k : κ) :
    ((aerase l k).map Prod.fst).Sublist (l.map Prod.fst) := by
  induction l with
  | nil => simp [aerase]
  | cons p rest ih =>
      by_cases hp : p.1 = k
      · simp only [aerase, if_pos hp, List.map_cons]
        exact List.sublist_cons_self _ _
      · simp only [aerase, if_neg hp, List.map_cons]
        exact ih.cons₂ _

theorem alookup_aerase_self {κ α : Type} [DecidableEq κ] (l : List (κ × α)) (k : κ)
    (h : (l.map Prod.fst).Nodup) : alookup (aerase l k) k = none := by
  induction l with
  | nil => simp [aerase, alookup]
  | cons p rest ih =>
      rw [List.map_cons, List.nodup_cons] at h
      by_cases hp : p.1 = k
      · simp only [aerase, if_pos hp]
        rw [alookup_eq_none]
        intro v hv
        apply h.1
        rw [hp]
        exact List.mem_map.2 ⟨(k, v), hv, rfl⟩
      · simp only [aerase, if_neg hp, alookup, if_neg hp]
        exact ih h.2

theorem mem_aset_map_fst {κ α : Type} [DecidableEq κ] (l : List (κ × α)) (k x : κ) (v : α) :
    x ∈ (aset l k v).map Prod.fst ↔ x ∈ l.map Prod.fst ∨ x = k := by
  induction l with
  | nil => simp [aset]
  | cons p rest ih =>
      by_cases hp : p.1 = k
      · subst hp
        have e : aset (p :: rest) p.1 v = (p.1, v) :: rest := by
          simp [aset]
        rw [e]
        simp only [List.map_cons, List.mem_cons]
        tauto
      · simp only [aset, if_neg hp, List.map_cons, List.mem_cons, ih]
        tauto

theorem aset_map_fst_nodup {κ α : Type} [DecidableEq κ] (l : List (κ × α)) (k : κ) (v : α)
    (h : (l.map Prod.fst).Nodup) : ((aset l k v).map Prod.fst).Nodup := by
  induction l with
  | nil => simp [aset]
  | cons p rest ih =>
      rw [List.map_cons, List.nodup_cons] at h
      by_cases hp : p.1 = k
      · subst hp
        have e : aset (p :: rest) p.1 v = (p.1, v) :: rest := by
          simp [aset]
        rw [e, List.map_cons, List.nodup_cons]
        exact h
      · simp only [aset, if_neg hp, List.map_cons, List.nodup_cons]
        refine ⟨?_, ih h.2⟩
        intro hx
        rcases (mem_aset_map_fst rest k p.1 v).1 hx with hh | hh
        · exact h.1 hh
        · exact hp hh

theorem alookup_none_not_mem_fst {κ α : Type} [DecidableEq κ] {l : List (κ × α)} {k : κ}
    (h : alookup l k = none) : k ∉ l.map Prod.fst := by
  intro hm
  rcases List.mem_map.1 hm with ⟨p, hp, hpe⟩
  exact (alookup_eq_none l k).1 h p.2 (by
    obtain ⟨p1, p2⟩ := p
    simp only at hpe
    subst hpe
    exact hp)

/-! ## Counting lemmas -/

theorem kcount_append (a : KeyAction) (l1 l2 : List KeyAction) :
    kcount a (l1 ++ l2) = kcount a l1 + kcount a l2 := by
  induction l1 with
  | nil => simp [kcount]
  | cons b rest ih => simp [kcount, ih]; omega

theorem physCount_append (l1 l2 : List KeyAction) (c : String) :
    physCount (l1 ++ l2) c = physCount l1 c + physCount l2 c := by
  simp [physCount, kcount_append]
  ring

theorem shiftBalance_append (l1 l2 : List KeyAction) :
    shiftBalance (l1 ++ l2) = shiftBalance l1 + shiftBalance l2 := by
  simp [shiftBalance, kcount_append]
  ring

theorem spaceBalance_append (l1 l2 : List KeyAction) :
    spaceBalance (l1 ++ l2) = spaceBalance l1 + spaceBalance l2 := by
  simp [spaceBalance, kcount_append]
  ring

theorem mcount_append (c : String) (l1 l2 : List (ℕ × String)) :
    mcount c (l1 ++ l2) = mcount c l1 + mcount c l2 := by
  induction l1 with
  | nil => simp [mcount]
  | cons p rest ih => simp [mcount, ih]; omega

theorem mcount_aerase {l : List (ℕ × String)} {n : ℕ} {v : String}
    (h : alookup l n = some v) (c : String) :
    mcount c l = mcount c (aerase l n) + (if v = c then 1 else 0) := by
  induction l with
  | nil => simp [alookup] at h
  | cons p rest ih =>
      by_cases hp : p.1 = n
      · have hv : p.2 = v := by simpa [alookup, hp] using h
        subst hv
        simp only [aerase, if_pos hp, mcount]
        omega
      · simp only [alookup, if_neg hp] at h
        simp only [aerase, if_neg hp, mcount, ih h]
        omega

/-! ## Projection and congruence helpers for the key state machine -/

theorem pressKey_activeNotes (nm : List (ℕ × String)) (s : PlayerState) (n : ℕ) :
    (pressKey nm s n).1.activeNotes = s.activeNotes := by
  cases hl : alookup nm n with
  | none => simp [pressKey, hl]
  | some ch =>
      by_cases hch : ch = ""
      · simp [pressKey, hl, hch]
      · by_cases hp : (alookup s.pressedKeys n).isSome
        · simp [pressKey, hl, hch, hp]
        · cases hs : alookup shiftMap ch with
          | none => simp [pressKey, hl, hch, hp, hs]
          | some base => simp [pressKey, hl, hch, hp, hs]

theorem pressKey_isSpace (nm : List (ℕ × String)) (s : PlayerState) (n : ℕ) :
    (pressKey nm s n).1.isSpacePressed = s.isSpacePressed := by
  cases hl : alookup nm n with
  | none => simp [pressKey, hl]
  | some ch =>
      by_cases hch : ch = ""
      · simp [pressKey, hl, hch]
      · by_cases hp : (alookup s.pressedKeys n).isSome
        · simp [pressKey, hl, hch, hp]
        · cases hs : alookup shiftMap ch with
          | none => simp [pressKey, hl, hch, hp, hs]
          | some base => simp [pressKey, hl, hch, hp, hs]

theorem releaseKey_activeNotes (s : PlayerState) (n : ℕ) :
    (releaseKey s n).1.activeNotes = s.activeNotes := by
  cases hl : alookup s.pressedKeys n with
  | none => simp [releaseKey, hl]
  | some c => simp [releaseKey, hl]

theorem releaseKey_isSpace (s : PlayerState) (n : ℕ) :
    (releaseKey s n).1.isSpacePressed = s.isSpacePressed := by
  cases hl : alookup s.pressedKeys n with
  | none => simp [releaseKey, hl]
  | some c => simp [releaseKey, hl]

theorem pressKey_congr (nm : List (ℕ × String)) (s1 s2 : PlayerState) (n : ℕ)
    (h : s1.pressedKeys = s2.pressedKeys) :
    (pressKey nm s1 n).1.pressedKeys = (pressKey nm s2 n).1.pressedKeys ∧
    (pressKey nm s1 n).2 = (pressKey nm s2 n).2 := by
  cases hl : alookup nm n with
  | none => simp [pressKey, hl, h]
  | some ch =>
      by_cases hch : ch = ""
      · simp [pressKey, hl, hch, h]
      · by_cases hp : (alookup s1.pressedKeys n).isSome
        · simp [pressKey, hl, hch, hp, h, h ▸ hp]
        · cases hs : alookup shiftMap ch with
          | none => simp [pressKey, hl, hch, hp, hs, h, h ▸ hp]
          | some base => simp [pressKey, hl, hch, hp, hs, h, h ▸ hp]

theorem releaseKey_congr (s1 s2 : PlayerState) (n : ℕ)
    (h : s1.pressedKeys = s2.pressedKeys) :
    (releaseKey s1 n).1.pressedKeys = (releaseKey s2 n).1.pressedKeys ∧
    (releaseKey s1 n).2 = (releaseKey s2 n).2 := by
  cases hl : alookup s1.pressedKeys n with
  | none => simp [releaseKey, hl, h, h ▸ hl]
  | some c => simp [releaseKey, hl, h, h ▸ hl]

/-! ## Claim C8: injectivity of the note→character map -/

/-- Claim C8, counterexample.  The claim states that the built-in
default table has no two notes mapped to the same character; but
`DEFAULT_NOTE_MAP` maps both note 64 and note 98 to `"u"` (and likewise
duplicates `"_"`, `"o"`, `"s"`, `"f"`, `"h"`, `"j"`), so the
character→note relation of the default table is not a partial
injection. -/
theorem noteMapInjective_counterexample :
    ¬ (∀ n1 n2 : ℕ, ∀ c : String, alookup defaultNoteMap n1 = some c →
        alookup defaultNoteMap n2 = some c → n1 = n2) :=
  fun h => absurd (h 64 98 "u" (by decide) (by decide)) (by decide)

/-- Claim C8, amended: the built-in default table itself has duplicate
target characters, but each *reassignment* through the editor
(`table_key_press_event`) does clear the assigned character from every
other note before assigning it, so after a reassignment of character `c`
(key presses always carry a non-empty text) to `note`, `note` is the
only note mapped to `c`. -/
theorem noteMapInjective_amended (m : List (ℕ × String)) (note : ℕ) (c : String)
    (hc : c ≠ "") (n : ℕ) :
    alookup (reassignKey m note c) n = some c ↔ n = note := by
  constructor
  · intro h
    by_contra hn
    rw [reassignKey, alookup_aset_ne _ _ _ _ hn] at h
    have hmem := alookup_mem h
    rcases List.mem_map.1 hmem with ⟨p, hp, hpe⟩
    by_cases hcond : p.2 = c ∧ p.1 ≠ note
    · rw [if_pos hcond] at hpe
      have h2 : "" = c := congrArg Prod.snd hpe
      exact hc h2.symm
    · rw [if_neg hcond] at hpe
      have h1 : p.1 = n := congrArg Prod.fst hpe
      have h2 : p.2 = c := congrArg Prod.snd hpe
      exact hcond ⟨h2, by rw [h1]; exact hn⟩
  · intro h
    subst h
    exact alookup_aset_self _ _ _

/-- Claim C8, witness for the amended theorem: reassigning `"u"` to note
60 leaves note 60 as the only note looked up to `"u"` (notes 64 and 98
are cleared). -/
theorem noteMapInjective_amended_witness :
    alookup (reassignKey defaultNoteMap 60 "u") 60 = some "u" ∧
    ¬ alookup (reassignKey defaultNoteMap 60 "u") 64 = some "u" :=
  ⟨(noteMapInjective_amended defaultNoteMap 60 "u" (by decide) 60).2 rfl,
   fun h => by
    have h2 := (noteMapInjective_amended defaultNoteMap 60 "u" (by decide) 64).1 h
    exact absurd h2 (by decide)⟩

/-! ## Claim C4: idempotence of `_release_all_keys` -/

/-- Claim C4, counterexample.  The claim states that a second,
immediately following call to `_release_all_keys` performs no physical
release at all, the Shift modifier included; but the source releases
Shift unconditionally on *every* call, so after pressing note 53 the
first call emits `release "q", releaseShift` and the second call still
emits `releaseShift` — the Shift key does receive a second release. -/
theorem releaseAllIdem_counterexample :
    (releaseAllKeys (processAll defaultNoteMap [(0, .noteOn 53 100)]).1).2
      = [.release "q", .releaseShift] ∧
    (releaseAllKeys
        (releaseAllKeys (processAll defaultNoteMap [(0, .noteOn 53 100)]).1).1).2
      = [.releaseShift] := by
  constructor <;> rfl

/-- Claim C4, amended: calling `_release_all_keys` twice in immediate
succession raises no error (it is a total function of the state) and the
second call performs no base-character release and no space release; the
one exception to the claim is the Shift modifier, which is released
unconditionally (defensively) on every call, so the second call emits
exactly one `releaseShift` and nothing else, and leaves the state
unchanged. -/
theorem releaseAllIdem_amended (s : PlayerState) :
    (releaseAllKeys (releaseAllKeys s).1).2 = [KeyAction.releaseShift] ∧
    (releaseAllKeys (releaseAllKeys s).1).1 = (releaseAllKeys s).1 := by
  have h1 : (releaseAllKeys s).1 =
      { activeNotes := [], pressedKeys := [], isSpacePressed := false } := by
    by_cases hs : s.isSpacePressed <;>
      simp [releaseAllKeys, releaseSpacePlayer, hs]
  rw [h1]
  exact ⟨rfl, rfl⟩

/-! ## Claim C2: transposition and the key-map lookup -/

/-- Claim C2, counterexample.  The claim states that with transpose +12
and note 60 both the visual entry and the emulated key use note 72;
but while the snapshot does record key 72, `_press_key` is called with
the original `msg.note`, so the character pressed is
`DEFAULT_NOTE_MAP[60] = "t"`, not `DEFAULT_NOTE_MAP[72] = "s"`. -/
theorem transposeLookup_counterexample :
    alookup (processMsg defaultNoteMap 12 initPlayerState (.noteOn 60 100)).1.activeNotes 72
      = some 100 ∧
    (processMsg defaultNoteMap 12 initPlayerState (.noteOn 60 100)).2 = [.press "t"] ∧
    alookup defaultNoteMap 72 = some "s" ∧
    ("t" : String) ≠ "s" := by
  refine ⟨by decide, by decide, by decide, by decide⟩

/-- Claim C2, amended: transposition is applied before the key-map
lookup for the visualization only — the active-note snapshot records
`note + transpose` — while key emulation presses and releases the
character looked up for the *original*, untransposed note, so the
pressed-key bookkeeping and the emitted physical actions are entirely
independent of the transpose value. -/
theorem transposeLookup_amended (nm : List (ℕ × String)) (s : PlayerState)
    (n v : ℕ) (t t' : ℤ) (hv : 0 < v) :
    alookup (processMsg nm t s (.noteOn n v)).1.activeNotes ((n : ℤ) + t) = some v ∧
    (processMsg nm t s (.noteOn n v)).1.pressedKeys
      = (processMsg nm t' s (.noteOn n v)).1.pressedKeys ∧
    (processMsg nm t s (.noteOn n v)).2 = (processMsg nm t' s (.noteOn n v)).2 ∧
    (processMsg nm t s (.noteOff n)).1.pressedKeys
      = (processMsg nm t' s (.noteOff n)).1.pressedKeys ∧
    (processMsg nm t s (.noteOff n)).2 = (processMsg nm t' s (.noteOff n)).2 := by
  refine ⟨?_, ?_, ?_, ?_, ?_⟩
  · simp only [processMsg, if_pos hv]
    rw [pressKey_activeNotes]
    exact alookup_aset_self _ _ _
  · simp only [processMsg, if_pos hv]
    exact (pressKey_congr nm
      { s with activeNotes := aset s.activeNotes ((n : ℤ) + t) v }
      { s with activeNotes := aset s.activeNotes ((n : ℤ) + t') v } n rfl).1
  · simp only [processMsg, if_pos hv]
    exact (pressKey_congr nm
      { s with activeNotes := aset s.activeNotes ((n : ℤ) + t) v }
      { s with activeNotes := aset s.activeNotes ((n : ℤ) + t') v } n rfl).2
  · simp only [processMsg]
    exact (releaseKey_congr
      { s with activeNotes :=
          if (alookup s.activeNotes ((n : ℤ) + t)).isSome then aerase s.activeNotes ((n : ℤ) + t)
          else s.activeNotes }
      { s with activeNotes :=
          if (alookup s.activeNotes ((n : ℤ) + t')).isSome then aerase s.activeNotes ((n : ℤ) + t')
          else s.activeNotes } n rfl).1
  · simp only [processMsg]
    exact (releaseKey_congr
      { s with activeNotes :=
          if (alookup s.activeNotes ((n : ℤ) + t)).isSome then aerase s.activeNotes ((n : ℤ) + t)
          else s.activeNotes }
      { s with activeNotes :=
          if (alookup s.activeNotes ((n : ℤ) + t')).isSome then aerase s.activeNotes ((n : ℤ) + t')
          else s.activeNotes } n rfl).2

/-- Claim C2, witness for the amended theorem: with transpose +12 the
visual snapshot for note 60 is recorded under key 72. -/
theorem transposeLookup_amended_witness :
    alookup (processMsg defaultNoteMap 12 initPlayerState (.noteOn 60 100)).1.activeNotes 72
      = some 100 :=
  (transposeLookup_amended defaultNoteMap initPlayerState 60 100 12 0 (by decide)).1

/-! ## Claim C10: the visual snapshot is keyed by note + transpose -/

/-- Claim C10: the active-note snapshot is keyed by
`msg.note + transpose` at the moment each message is processed, so a
NoteOff processed under the same transpose as its NoteOn removes exactly
the entry the NoteOn added (and touches no other key), while a NoteOff
processed under a different transpose leaves the NoteOn's entry in
place.  The Nodup hypothesis is the Python-dict invariant that
`active_notes` has no duplicate keys. -/
theorem visualSnapshotTranspose (nm : List (ℕ × String)) (s : PlayerState)
    (n v : ℕ) (t t' : ℤ) (hv : 0 < v)
    (hnd : (s.activeNotes.map Prod.fst).Nodup) :
    (t' = t →
      alookup (processMsg nm t' (processMsg nm t s (.noteOn n v)).1 (.noteOff n)).1.activeNotes
          ((n : ℤ) + t) = none ∧
      ∀ k, k ≠ (n : ℤ) + t →
        alookup (processMsg nm t' (processMsg nm t s (.noteOn n v)).1 (.noteOff n)).1.activeNotes k
          = alookup (processMsg nm t s (.noteOn n v)).1.activeNotes k) ∧
    (t' ≠ t →
      alookup (processMsg nm t' (processMsg nm t s (.noteOn n v)).1 (.noteOff n)).1.activeNotes
          ((n : ℤ) + t) = some v) := by
  have hA : (processMsg nm t s (.noteOn n v)).1.activeNotes
      = aset s.activeNotes ((n : ℤ) + t) v := by
    simp only [processMsg, if_pos hv]
    rw [pressKey_activeNotes]
  obtain ⟨s1, hs1⟩ : ∃ s1, (processMsg nm t s (.noteOn n v)).1 = s1 := ⟨_, rfl⟩
  rw [hs1] at hA
  rw [hs1]
  have hB : ∀ u : ℤ, (processMsg nm u s1 (.noteOff n)).1.activeNotes
      = (if (alookup s1.activeNotes ((n : ℤ) + u)).isSome then aerase s1.activeNotes ((n : ℤ) + u)
         else s1.activeNotes) := by
    intro u
    simp only [processMsg]
    rw [releaseKey_activeNotes]
  constructor
  · intro he
    subst he
    have hsome : (alookup s1.activeNotes ((n : ℤ) + t')).isSome = true := by
      rw [hA, alookup_aset_self]
      rfl
    constructor
    · rw [hB, if_pos hsome]
      apply alookup_aerase_self
      rw [hA]
      exact aset_map_fst_nodup _ _ _ hnd
    · intro k hk
      rw [hB, if_pos hsome]
      exact alookup_aerase_ne _ _ _ hk
  · intro hne
    have hkne : (n : ℤ) + t ≠ (n : ℤ) + t' := by
      intro hh
      exact hne (by omega)
    rw [hB]
    by_cases hs : (alookup s1.activeNotes ((n : ℤ) + t')).isSome
    · rw [if_pos hs, alookup_aerase_ne _ _ _ hkne, hA]
      exact alookup_aset_self _ _ _
    · rw [if_neg hs, hA]
      exact alookup_aset_self _ _ _

/-- Claim C10, witness: processing NoteOn 60 then NoteOff 60, both under
transpose +12, removes the snapshot entry at key 72 again. -/
theorem visualSnapshotTranspose_witness :
    alookup (processMsg defaultNoteMap 12
        (processMsg defaultNoteMap 12 initPlayerState (.noteOn 60 100)).1
        (.noteOff 60)).1.activeNotes 72 = none :=
  ((visualSnapshotTranspose defaultNoteMap initPlayerState 60 100 12 12
      (by decide) (by decide)).1 rfl).1

/-! ## Claim C1: key-state safety of the emulation state machine -/

theorem pressSpace_inv (s : PlayerState) (tr : List KeyAction) (h : PlayerInv s tr) :
    PlayerInv (pressSpacePlayer s).1 (tr ++ (pressSpacePlayer s).2) := by
  obtain ⟨h1, h2, h3, h4⟩ := h
  by_cases hs : s.isSpacePressed
  · simp only [pressSpacePlayer, if_pos hs, List.append_nil]
    exact ⟨h1, h2, h3, h4⟩
  · simp only [pressSpacePlayer, if_neg hs]
    refine ⟨?_, ?_, ?_, ?_⟩
    · rw [shiftBalance_append, h1]
      simp [shiftBalance, kcount]
    · intro c
      rw [physCount_append]
      have hz : physCount [KeyAction.pressSpace] c = 0 := by
        simp [physCount, kcount]
      rw [hz, h2 c]
      simp
    · exact h3
    · rw [spaceBalance_append, h4, if_neg hs]
      simp [spaceBalance, kcount]

theorem releaseSpace_inv (s : PlayerState) (tr : List KeyAction) (h : PlayerInv s tr) :
    PlayerInv (releaseSpacePlayer s).1 (tr ++ (releaseSpacePlayer s).2) := by
  obtain ⟨h1, h2, h3, h4⟩ := h
  by_cases hs : s.isSpacePressed
  · simp only [releaseSpacePlayer, if_pos hs]
    refine ⟨?_, ?_, ?_, ?_⟩
    · rw [shiftBalance_append, h1]
      simp [shiftBalance, kcount]
    · intro c
      rw [physCount_append]
      have hz : physCount [KeyAction.releaseSpace] c = 0 := by
        simp [physCount, kcount]
      rw [hz, h2 c]
      simp
    · exact h3
    · rw [spaceBalance_append, h4, if_pos hs]
      simp [spaceBalance, kcount]
  · simp only [releaseSpacePlayer, if_neg hs, List.append_nil]
    exact ⟨h1, h2, h3, h4⟩

theorem pressKey_inv (nm : List (ℕ × String)) (s : PlayerState) (n : ℕ)
    (tr : List KeyAction) (h : PlayerInv s tr) :
    PlayerInv (pressKey nm s n).1 (tr ++ (pressKey nm s n).2) := by
  obtain ⟨h1, h2, h3, h4⟩ := h
  cases hl : alookup nm n with
  | none =>
      simp only [pressKey, hl, List.append_nil]
      exact ⟨h1, h2, h3, h4⟩
  | some ch =>
      by_cases hch : ch = ""
      · simp only [pressKey, hl, if_pos hch, List.append_nil]
        exact ⟨h1, h2, h3, h4⟩
      · by_cases hp : (alookup s.pressedKeys n).isSome
        · simp only [pressKey, hl, if_neg hch, if_pos hp, List.append_nil]
          exact ⟨h1, h2, h3, h4⟩
        · have hnone : alookup s.pressedKeys n = none := by
            cases hq : alookup s.pressedKeys n with
            | none => rfl
            | some c => rw [hq] at hp; simp at hp
          have hnotmem : n ∉ s.pressedKeys.map Prod.fst := alookup_none_not_mem_fst hnone
          have main : ∀ (b : String) (acts : List KeyAction),
              shiftBalance acts = 0 →
              (∀ c, physCount acts c = if b = c then 1 else 0) →
              spaceBalance acts = 0 →
              PlayerInv { s with pressedKeys := s.pressedKeys ++ [(n, b)] } (tr ++ acts) := by
            intro b acts ha1 ha2 ha3
            refine ⟨?_, ?_, ?_, ?_⟩
            · rw [shiftBalance_append, h1, ha1]
              simp
            · intro c
              rw [physCount_append, h2 c, ha2 c]
              show _ = (mcount c (s.pressedKeys ++ [(n, b)]) : ℤ)
              rw [mcount_append]
              have : mcount c [(n, b)] = if b = c then 1 else 0 := by
                simp [mcount]
              rw [this]
              by_cases hbc : b = c <;> simp [hbc]
            · show (List.map Prod.fst (s.pressedKeys ++ [(n, b)])).Nodup
              rw [List.map_append]
              simp [List.nodup_append, h3, hnotmem]
            · rw [spaceBalance_append, h4, ha3]
              simp
          cases hs : alookup shiftMap ch with
          | some base =>
              simp only [pressKey, hl, if_neg hch, if_neg hp, hs]
              exact main base _ (by simp [shiftBalance, kcount])
                (fun c => by by_cases hbc : base = c <;> simp [physCount, kcount, hbc])
                (by simp [spaceBalance, kcount])
          | none =>
              simp only [pressKey, hl, if_neg hch, if_neg hp, hs]
              exact main ch _ (by simp [shiftBalance, kcount])
                (fun c => by by_cases hbc : ch = c <;> simp [physCount, kcount, hbc])
                (by simp [spaceBalance, kcount])

theorem releaseKey_inv (s : PlayerState) (n : ℕ) (tr : List KeyAction)
    (h : PlayerInv s tr) :
    PlayerInv (releaseKey s n).1 (tr ++ (releaseKey s n).2) := by
  obtain ⟨h1, h2, h3, h4⟩ := h
  cases hl : alookup s.pressedKeys n with
  | none =>
      simp only [releaseKey, hl, List.append_nil]
      exact ⟨h1, h2, h3, h4⟩
  | some c =>
      simp only [releaseKey, hl]
      refine ⟨?_, ?_, ?_, ?_⟩
      · rw [shiftBalance_append, h1]
        simp [shiftBalance, kcount]
      · intro c2
        have hphys : physCount [KeyAction.release c] c2 = -(if c = c2 then 1 else 0) := by
          by_cases hcc : c = c2 <;> simp [physCount, kcount, hcc]
        rw [physCount_append, hphys, h2 c2, mcount_aerase hl c2]
        show ((mcount c2 (aerase s.pressedKeys n) + if c = c2 then 1 else 0 : ℕ) : ℤ)
            - (if c = c2 then 1 else 0) = (mcount c2 (aerase s.pressedKeys n) : ℤ)
        by_cases hcc : c = c2 <;> simp [hcc]
      · show (List.map Prod.fst (aerase s.pressedKeys n)).Nodup
        exact List.Nodup.sublist (aerase_map_fst_sublist _ _) h3
      · rw [spaceBalance_append, h4]
        simp [spaceBalance, kcount]

theorem processMsg_inv (nm : List (ℕ × String)) (t : ℤ) (s : PlayerState)
    (m : MsgKind) (tr : List KeyAction) (h : PlayerInv s tr) :
    PlayerInv (processMsg nm t s m).1 (tr ++ (processMsg nm t s m).2) := by
  cases m with
  | noteOn n v =>
      by_cases hv : 0 < v
      · simp only [processMsg, if_pos hv]
        exact pressKey_inv nm _ n tr h
      · simp only [processMsg, if_neg hv]
        exact releaseKey_inv _ n tr h
  | noteOff n =>
      simp only [processMsg]
      exact releaseKey_inv _ n tr h
  | controlChange c v =>
      by_cases hc : c = 64
      · by_cases hval : 64 ≤ v
        · simp only [processMsg, if_pos hc, if_pos hval]
          exact releaseSpace_inv s tr h
        · simp only [processMsg, if_pos hc, if_neg hval]
          exact pressSpace_inv s tr h
      · simp only [processMsg, if_neg hc, List.append_nil]
        exact h
  | setTempo t2 =>
      simp only [processMsg, List.append_nil]
      exact h
  | otherMeta =>
      simp only [processMsg, List.append_nil]
      exact h
  | otherMsg =>
      simp only [processMsg, List.append_nil]
      exact h

theorem processAllFrom_inv (nm : List (ℕ × String)) (s : PlayerState)
    (msgs : List (ℤ × MsgKind)) (tr : List KeyAction) (h : PlayerInv s tr) :
    PlayerInv (processAllFrom nm s msgs).1 (tr ++ (processAllFrom nm s msgs).2) := by
  induction msgs generalizing s tr with
  | nil =>
      simp only [processAllFrom, List.append_nil]
      exact h
  | cons p rest ih =>
      simp only [processAllFrom]
      have h2 := processMsg_inv nm p.1 s p.2 tr h
      have h3 := ih (processMsg nm p.1 s p.2).1 (tr ++ (processMsg nm p.1 s p.2).2) h2
      simpa [List.append_assoc] using h3

theorem playerInv_init : PlayerInv initPlayerState [] := by
  refine ⟨rfl, ?_, ?_, rfl⟩
  · intro c
    simp [physCount, kcount, mcount, initPlayerState]
  · simp [initPlayerState]

/-- Claim C1, counterexample.  The claim's safety property fails on the
code: `_press_key` presses Shift only transiently
(`with keyboard.pressed(Key.shift)`) and never tracks a shift-holder
set, and nothing stops two notes from pressing the same base character.
Playing notes 53 (`"q"`) and 54 (`"Q"`, base `"q"`) yields the action
trace `press "q", pressShift, press "q", releaseShift`: the base
character `"q"` is physically pressed twice concurrently
(`physCount = 2 > 1`), and afterwards Shift is up even though active
note 54 still requires a shifted character. -/
theorem keyStateSafety_counterexample :
    ¬ KeyStateSafe defaultNoteMap [(0, .noteOn 53 100), (0, .noteOn 54 100)] := by
  intro h
  have h2 := h [(0, .noteOn 53 100), (0, .noteOn 54 100)] []
    (List.append_nil _).symm
  exact absurd (h2.1 "q") (by decide)

/-- Claim C1, amended: what the state machine actually guarantees
between messages, for every message sequence from the initial state:
each note holds at most one pressed-key record
(`pressed_keys` has no duplicate keys); the net press count of every
base character equals the number of currently pressed notes recorded for
it — so a character shared by `k` concurrently pressed notes has been
pressed `k` times, not at most once; and the net Shift balance is always
0: Shift is pressed and released transiently around each shifted press
and is never held between messages, whether or not shifted notes remain
active. -/
theorem keyStateSafety_amended (nm : List (ℕ × String)) (msgs : List (ℤ × MsgKind)) :
    shiftBalance (processAll nm msgs).2 = 0 ∧
    (∀ c, physCount (processAll nm msgs).2 c
        = (mcount c (processAll nm msgs).1.pressedKeys : ℤ)) ∧
    ((processAll nm msgs).1.pressedKeys.map Prod.fst).Nodup := by
  have h := processAllFrom_inv nm initPlayerState msgs [] playerInv_init
  rw [List.nil_append] at h
  exact ⟨h.1, h.2.1, h.2.2.1⟩

/-! ## Claim C5: the initial sustain/space-key state -/

theorem processMsg_space_stays (nm : List (ℕ × String)) (t : ℤ) (s : PlayerState)
    (m : MsgKind) (hs : s.isSpacePressed = false)
    (h : isSustainPressMsg m = false) :
    (processMsg nm t s m).1.isSpacePressed = false := by
  cases m with
  | controlChange c v =>
      by_cases hc : c = 64
      · subst hc
        have hv : 64 ≤ v := by
          simp [isSustainPressMsg] at h
          omega
        simp [processMsg, hv, releaseSpacePlayer, hs]
      · simp [processMsg, hc, hs]
  | noteOn n v =>
      by_cases hv : 0 < v
      · simp only [processMsg, if_pos hv]
        rw [pressKey_isSpace]
        exact hs
      · simp only [processMsg, if_neg hv]
        rw [releaseKey_isSpace]
        exact hs
  | noteOff n =>
      simp only [processMsg]
      rw [releaseKey_isSpace]
      exact hs
  | setTempo t2 => simpa [processMsg] using hs
  | otherMeta => simpa [processMsg] using hs
  | otherMsg => simpa [processMsg] using hs

theorem processAllFrom_space_stays (nm : List (ℕ × String)) (s : PlayerState)
    (msgs : List (ℤ × MsgKind)) (hs : s.isSpacePressed = false)
    (h : ∀ p ∈ msgs, isSustainPressMsg p.2 = false) :
    (processAllFrom nm s msgs).1.isSpacePressed = false := by
  induction msgs generalizing s with
  | nil => simpa [processAllFrom] using hs
  | cons p rest ih =>
      simp only [processAllFrom]
      exact ih (processMsg nm p.1 s p.2).1
        (processMsg_space_stays nm p.1 s p.2 hs (h p (List.mem_cons_self _ _)))
        (fun q hq => h q (List.mem_cons_of_mem _ hq))

theorem compileStep_hasSustain (tpb : ℕ) (st : CompileState) (m : Msg) :
    (compileStep tpb st m).hasSustain
      = (st.hasSustain ||
          (match m.kind with
           | MsgKind.controlChange c _ => decide (c = 64)
           | _ => false)) := by
  obtain ⟨time, kind⟩ := m
  cases kind <;> simp [compileStep, Msg.isMeta]

theorem sustainFlag_iff (m : Msg) :
    ((match m.kind with
      | MsgKind.controlChange c _ => decide (c = 64)
      | _ => false) = true) ↔ ∃ v, m.kind = MsgKind.controlChange 64 v := by
  obtain ⟨time, kind⟩ := m
  cases kind with
  | controlChange c v =>
      simp only [decide_eq_true_eq]
      constructor
      · intro hc
        exact ⟨v, by rw [hc]⟩
      · rintro ⟨v2, hv⟩
        cases hv
        rfl
  | noteOn n v => simp
  | noteOff n => simp
  | setTempo t => simp
  | otherMeta => simp
  | otherMsg => simp

theorem compileFrom_hasSustain (tpb : ℕ) (st : CompileState) (msgs : List Msg) :
    ((compileFrom tpb st msgs).hasSustain = true ↔
      st.hasSustain = true ∨ ∃ m ∈ msgs, ∃ v, m.kind = MsgKind.controlChange 64 v) := by
  induction msgs generalizing st with
  | nil => simp [compileFrom]
  | cons m rest ih =>
      simp only [compileFrom]
      rw [ih]
      rw [compileStep_hasSustain]
      simp only [Bool.or_eq_true, List.mem_cons]
      constructor
      · rintro ((hst | hflag) | hrest)
        · exact Or.inl hst
        · exact Or.inr ⟨m, Or.inl rfl, (sustainFlag_iff m).1 hflag⟩
        · rcases hrest with ⟨m2, hm2, hv⟩
          exact Or.inr ⟨m2, Or.inr hm2, hv⟩
      · rintro (hst | ⟨m2, hm2 | hm2, hv⟩)
        · exact Or.inl (Or.inl hst)
        · rw [hm2] at hv
          exact Or.inl (Or.inr ((sustainFlag_iff m).2 hv))
        · exact Or.inr ⟨m2, hm2, hv⟩

/-- Claim C5, counterexample.  The claim states that when the compiled
file contains at least one sustain control change, the space key starts
*physically held*; but the player's `is_space_pressed` starts `False`
and `run` never presses space at startup (for a file with sustain it
does not even call `_release_space`), so after compiling a file
containing a sustain message the space key still starts released and no
startup key action is emitted at all. -/
theorem sustainDefault_counterexample :
    (compileFile 480 [⟨0, .controlChange 64 127⟩]).hasSustain = true ∧
    (startupSpace (compileFile 480 [⟨0, .controlChange 64 127⟩]).hasSustain).1.isSpacePressed
      = false ∧
    (startupSpace (compileFile 480 [⟨0, .controlChange 64 127⟩]).hasSustain).2 = [] := by
  refine ⟨by decide, by decide, by decide⟩

/-- Claim C5, amended: `has_sustain` is true exactly when the file
contains a sustain control-change (controller 64) anywhere; but
regardless of its value the space key starts *released* — the startup
step emits no key action (for a file without sustain the
`_release_space` call is a no-op since space was never pressed) — and it
stays released until the first sustain control-change with value < 64
(pedal up, which in the source's inverted convention is what presses
space) is dispatched. -/
theorem sustainDefault_amended (rawTpb : ℤ) (fileMsgs : List Msg)
    (nm : List (ℕ × String)) (playMsgs : List (ℤ × MsgKind))
    (h : ∀ p ∈ playMsgs, isSustainPressMsg p.2 = false) :
    ((compileFile rawTpb fileMsgs).hasSustain = true ↔
      ∃ m ∈ fileMsgs, ∃ v, m.kind = MsgKind.controlChange 64 v) ∧
    (startupSpace (compileFile rawTpb fileMsgs).hasSustain).1.isSpacePressed = false ∧
    (startupSpace (compileFile rawTpb fileMsgs).hasSustain).2 = [] ∧
    (processAllFrom nm (startupSpace (compileFile rawTpb fileMsgs).hasSustain).1
        playMsgs).1.isSpacePressed = false := by
  have hstart : ∀ b : Bool, (startupSpace b).1.isSpacePressed = false ∧ (startupSpace b).2 = [] := by
    intro b
    cases b <;> simp [startupSpace, releaseSpacePlayer, initPlayerState]
  refine ⟨?_, (hstart _).1, (hstart _).2, ?_⟩
  · rw [compileFile, compileFrom_hasSustain]
    simp
  · exact processAllFrom_space_stays nm _ playMsgs (hstart _).1 h

/-- Claim C5, witness for the amended theorem: a file with a sustain
control change, followed by playback of a note-on and a pedal-down
sustain message (value 127 ≥ 64), leaves the space key released
throughout. -/
theorem sustainDefault_amended_witness :
    (processAllFrom defaultNoteMap
        (startupSpace (compileFile 480 [⟨0, .controlChange 64 127⟩]).hasSustain).1
        [(0, .noteOn 60 100), (0, .controlChange 64 127)]).1.isSpacePressed = false :=
  (sustainDefault_amended 480 [⟨0, .controlChange 64 127⟩] defaultNoteMap
      [(0, .noteOn 60 100), (0, .controlChange 64 127)]
      (by decide)).2.2.2

/-! ## Claim C3: exit paths of the playback worker -/

theorem rcount_append (e : RunEvent) (l1 l2 : List RunEvent) :
    rcount e (l1 ++ l2) = rcount e l1 + rcount e l2 := by
  induction l1 with
  | nil => simp [rcount]
  | cons b rest ih => simp [rcount, ih]; omega

theorem runStep_inv (n : ℕ) (s : RunState) (b : Bool) (h : runInv s) :
    runInv (runStep n s b) := by
  obtain ⟨ph, tr⟩ := s
  cases ph with
  | countdown i =>
      obtain ⟨h1, h2, h3⟩ := h
      have c1 : rcount RunEvent.releasedAll (tr ++ [RunEvent.statusMsg]) = 0 := by
        rw [rcount_append, h1]
        simp [rcount]
      have c2 : rcount RunEvent.finishedSig (tr ++ [RunEvent.statusMsg]) = 0 := by
        rw [rcount_append, h2]
        simp [rcount]
      have c3 : ∀ j, RunEvent.dispatched j ∉ tr ++ [RunEvent.statusMsg] := by
        intro j hj
        rcases List.mem_append.1 hj with hj | hj
        · exact h3 j hj
        · simp at hj
      cases b with
      | false =>
          show runInv { phase := RunPhase.done, trace := tr ++ [RunEvent.finishedSig] }
          refine Or.inr ⟨?_, ?_, tr, rfl, h2⟩
          · intro j hj
            rcases List.mem_append.1 hj with hj | hj
            · exact h3 j hj
            · simp at hj
          · rw [rcount_append, h1]
            simp [rcount]
      | true =>
          show runInv { phase := if i ≤ 1 then RunPhase.preplay else RunPhase.countdown (i - 1),
                        trace := tr ++ [RunEvent.statusMsg] }
          by_cases hi : i ≤ 1
          · rw [if_pos hi]
            exact ⟨c1, c2, c3⟩
          · rw [if_neg hi]
            exact ⟨c1, c2, c3⟩
  | preplay =>
      obtain ⟨h1, h2, h3⟩ := h
      cases b with
      | false =>
          show runInv { phase := RunPhase.done, trace := tr ++ [RunEvent.finishedSig] }
          refine Or.inr ⟨?_, ?_, tr, rfl, h2⟩
          · intro j hj
            rcases List.mem_append.1 hj with hj | hj
            · exact h3 j hj
            · simp at hj
          · rw [rcount_append, h1]
            simp [rcount]
      | true =>
          show runInv { phase := RunPhase.playing 0, trace := tr ++ [RunEvent.statusMsg] }
          refine ⟨?_, ?_⟩
          · rw [rcount_append, h1]
            simp [rcount]
          · rw [rcount_append, h2]
            simp [rcount]
  | playing idx =>
      obtain ⟨h1, h2⟩ := h
      show runInv (if b = true ∧ idx < n
        then { phase := RunPhase.playing (idx + 1), trace := tr ++ [RunEvent.dispatched idx] }
        else { phase := RunPhase.done,
               trace := tr ++ [RunEvent.releasedAll, RunEvent.finishedSig] })
      by_cases hc : b = true ∧ idx < n
      · rw [if_pos hc]
        refine ⟨?_, ?_⟩
        · rw [rcount_append, h1]
          simp [rcount]
        · rw [rcount_append, h2]
          simp [rcount]
      · rw [if_neg hc]
        exact Or.inl ⟨tr, rfl, h1, h2⟩
  | done => exact h

theorem runAll_inv (n : ℕ) (flags : List Bool) : runInv (runAll n flags) := by
  have main : ∀ (fs : List Bool) (s : RunState), runInv s → runInv (fs.foldl (runStep n) s) := by
    intro fs
    induction fs with
    | nil => intro s h; exact h
    | cons b rest ih =>
        intro s h
        exact ih _ (runStep_inv n s b h)
  exact main flags _ (by refine ⟨rfl, rfl, ?_⟩; intro i hi; simp at hi)

/-- Claim C3, counterexample.  The claim states that the key-release
cleanup runs exactly once before the terminal signal on *every* exit
path, including a stop during the pre-roll countdown; but the countdown
checks (`if not self.is_running: self.finished.emit(); return`) emit
`finished` and return *without* calling `_release_all_keys`: stopping at
the very first countdown check produces the trace `[finishedSig]`, with
zero cleanup calls before the terminal signal. -/
theorem releaseCleanup_counterexample :
    (runAll 5 [false]).phase = RunPhase.done ∧
    (runAll 5 [false]).trace = [RunEvent.finishedSig] ∧
    rcount .releasedAll (runAll 5 [false]).trace = 0 := by
  refine ⟨by decide, by decide, by decide⟩

/-- Claim C3, amended: whenever the worker has exited, the terminal
signal was emitted exactly once, and the cleanup behaviour splits by
exit path: on natural completion and on a stop observed during the main
loop the trace ends with exactly one `_release_all_keys` immediately
followed by `finished`; on a stop observed during the countdown (or at
the check right after it) `finished` fires with *no* cleanup call —
which is safe only because no event has been dispatched and hence no key
pressed on that path. -/
theorem releaseCleanup_amended (n : ℕ) (flags : List Bool)
    (h : (runAll n flags).phase = RunPhase.done) :
    rcount .finishedSig (runAll n flags).trace = 1 ∧
    ((∃ pre, (runAll n flags).trace = pre ++ [.releasedAll, .finishedSig] ∧
        rcount .releasedAll (runAll n flags).trace = 1) ∨
     (rcount .releasedAll (runAll n flags).trace = 0 ∧
      ∀ i, RunEvent.dispatched i ∉ (runAll n flags).trace)) := by
  have hi := runAll_inv n flags
  generalize hr : runAll n flags = r at h hi ⊢
  obtain ⟨ph, tr⟩ := r
  simp only at h
  subst h
  rcases hi with ⟨pre, he, hrel, hfin⟩ | ⟨hnod, hrel, pre, he, hfin⟩
  · constructor
    · rw [he, rcount_append, hfin]
      simp [rcount]
    · refine Or.inl ⟨pre, he, ?_⟩
      rw [he, rcount_append, hrel]
      simp [rcount]
  · constructor
    · rw [he, rcount_append, hfin]
      simp [rcount]
    · exact Or.inr ⟨hrel, hnod⟩

/-- Claim C3, witness for the amended theorem: a full playback of one
event under six `True` readings of `is_running` reaches `done` with
exactly one terminal signal (and, per the left disjunct, one cleanup
call before it). -/
theorem releaseCleanup_amended_witness :
    rcount .finishedSig (runAll 1 [true, true, true, true, true, true]).trace = 1 :=
  (releaseCleanup_amended 1 [true, true, true, true, true, true] (by decide)).1

/-! ## Claim C6: tempo resolution during compilation -/

theorem compileFrom_events (tpb : ℕ) (st : CompileState) (msgs : List Msg) :
    (compileFrom tpb st msgs).events
      = st.events ++ specTempoResolve tpb st.absoluteTime st.tempo msgs := by
  induction msgs generalizing st with
  | nil => simp [compileFrom, specTempoResolve]
  | cons m rest ih =>
      obtain ⟨time, kind⟩ := m
      cases kind <;>
        simp [compileFrom, specTempoResolve, compileStep, Msg.isMeta, ih,
          List.append_assoc]

/-- Claim C6: the compiler resolves tempo exactly as specified — every
message's tick delta is converted to seconds with the tempo in effect
before that message, a `set_tempo` meta event changes the tempo only
after its own delta conversion (affecting subsequent deltas only, never
retroactively), and the emitted event sequence contains exactly the
non-meta messages (sustain control changes included) paired with the
accumulated absolute time.  `specTempoResolve` is the spec-side
rendition of §4.1; the source-side fold over `compileStep` produces
identical events for every merged stream and ticks-per-beat value. -/
theorem tempoResolution_refines (rawTpb : ℤ) (msgs : List Msg) :
    (compileFile rawTpb msgs).events
      = specTempoResolve (effectiveTpb rawTpb) 0 500000 msgs := by
  rw [compileFile, compileFrom_events]
  simp

/-! ## Claim C7: monotone timestamps -/

theorem tick2second_nonneg (ticks : ℤ) (tpb tempo : ℕ) (h : 0 ≤ ticks) :
    0 ≤ tick2second ticks tpb tempo := by
  apply div_nonneg
  · have h1 : (0 : ℚ) ≤ (ticks : ℚ) := by exact_mod_cast h
    positivity
  · positivity

theorem specTempoResolve_ge (tpb : ℕ) (a : ℚ) (tempo : ℕ) (msgs : List Msg)
    (h : ∀ m ∈ msgs, 0 ≤ m.time) :
    ∀ e ∈ specTempoResolve tpb a tempo msgs, a ≤ e.1 := by
  induction msgs generalizing a tempo with
  | nil => simp [specTempoResolve]
  | cons m rest ih =>
      intro e he
      have hd : 0 ≤ tick2second m.time tpb tempo :=
        tick2second_nonneg _ _ _ (h m (List.mem_cons_self _ _))
      simp only [specTempoResolve] at he
      rcases List.mem_append.1 he with he | he
      · by_cases hm : m.isMeta
        · rw [if_pos hm] at he
          simp at he
        · rw [if_neg hm] at he
          simp at he
          rw [he]
          simp only
          linarith
      · have h2 := ih (a + tick2second m.time tpb tempo)
          (match m.kind with | .setTempo t => t | _ => tempo)
          (fun q hq => h q (List.mem_cons_of_mem _ hq)) e he
        linarith

theorem nondecQ_cons (x : ℚ) (l : List ℚ) (h1 : ∀ y ∈ l, x ≤ y) (h2 : nondecQ l) :
    nondecQ (x :: l) := by
  cases l with
  | nil => trivial
  | cons b rest => exact ⟨h1 b (List.mem_cons_self _ _), h2⟩

theorem specTempoResolve_nondec (tpb : ℕ) (a : ℚ) (tempo : ℕ) (msgs : List Msg)
    (h : ∀ m ∈ msgs, 0 ≤ m.time) :
    nondecQ ((specTempoResolve tpb a tempo msgs).map Prod.fst) := by
  induction msgs generalizing a tempo with
  | nil => trivial
  | cons m rest ih =>
      have htail := ih (a + tick2second m.time tpb tempo)
        (match m.kind with | .setTempo t => t | _ => tempo)
        (fun q hq => h q (List.mem_cons_of_mem _ hq))
      have hge := specTempoResolve_ge tpb (a + tick2second m.time tpb tempo)
        (match m.kind with | .setTempo t => t | _ => tempo) rest
        (fun q hq => h q (List.mem_cons_of_mem _ hq))
      simp only [specTempoResolve]
      by_cases hm : m.isMeta
      · rw [if_pos hm]
        rw [List.nil_append]
        exact htail
      · rw [if_neg hm]
        rw [List.singleton_append, List.map_cons]
        apply nondecQ_cons
        · intro y hy
          rcases List.mem_map.1 hy with ⟨e, hme, hye⟩
          rw [← hye]
          exact hge e hme
        · exact htail

/-- `nondecQ` is exactly the claim's indexed formulation: every entry is
at most its successor. -/
theorem nondecQ_get (l : List ℚ) (h : nondecQ l) :
    ∀ i (h1 : i + 1 < l.length), l.get ⟨i, by omega⟩ ≤ l.get ⟨i + 1, h1⟩ := by
  induction l with
  | nil =>
      intro i h1
      simp at h1
  | cons a rest ih =>
      intro i h1
      cases rest with
      | nil => simp at h1
      | cons b rest2 =>
          obtain ⟨hab, ht⟩ := h
          cases i with
          | zero => exact hab
          | succ j => exact ih ht j (by simpa using h1)

/-- Claim C7: for every input whose per-message tick deltas are
non-negative, the compiled event sequence has monotonically
non-decreasing timestamps (`nondecQ` states
`events[i].timestamp ≤ events[i+1].timestamp` for every consecutive
pair; see `nondecQ_get`). -/
theorem timestampsMonotone (rawTpb : ℤ) (msgs : List Msg)
    (h : ∀ m ∈ msgs, 0 ≤ m.time) :
    nondecQ ((compileFile rawTpb msgs).events.map Prod.fst) := by
  rw [compileFile, compileFrom_events]
  rw [List.nil_append]
  exact specTempoResolve_nondec _ _ _ msgs h

/-- Claim C7, witness: a three-message stream with a mid-file tempo
change compiles to non-decreasing timestamps. -/
theorem timestampsMonotone_witness :
    nondecQ ((compileFile 480 [⟨480, .noteOn 60 80⟩, ⟨0, .setTempo 250000⟩,
        ⟨480, .noteOff 60⟩]).events.map Prod.fst) :=
  timestampsMonotone 480
    [⟨480, .noteOn 60 80⟩, ⟨0, .setTempo 250000⟩, ⟨480, .noteOff 60⟩] (by decide)

/-! ## Claim C9: the derived-text export -/

theorem mem_map_fst_iff_alookup {κ α : Type} [DecidableEq κ] (l : List (κ × α)) (k : κ) :
    k ∈ l.map Prod.fst ↔ alookup l k ≠ none := by
  constructor
  · intro hm hn
    exact alookup_none_not_mem_fst hn hm
  · intro hn
    by_contra hm
    apply hn
    rw [alookup_eq_none]
    intro v hv
    exact hm (List.mem_map.2 ⟨(k, v), hv, rfl⟩)

theorem alookup_addToGroup_self (d : List (ℚ × List ℕ)) (t : ℚ) (n : ℕ) :
    alookup (addToGroup d t n) t = some (((alookup d t).getD []) ++ [n]) := by
  induction d with
  | nil => simp [addToGroup, alookup]
  | cons g rest ih =>
      by_cases hg : g.1 = t
      · simp [addToGroup, hg, alookup]
      · simp [addToGroup, hg, alookup, ih]

theorem alookup_addToGroup_ne (d : List (ℚ × List ℕ)) (t t2 : ℚ) (n : ℕ)
    (h : t2 ≠ t) : alookup (addToGroup d t n) t2 = alookup d t2 := by
  induction d with
  | nil =>
      simp only [addToGroup, alookup]
      rw [if_neg (fun hh => h hh.symm)]
  | cons g rest ih =>
      by_cases hg : g.1 = t
      · have hcond : ¬ g.1 = t2 := by
          rw [hg]
          exact fun hh => h hh.symm
        simp only [addToGroup, if_pos hg, alookup]
        rw [if_neg hcond, if_neg hcond]
      · simp only [addToGroup, if_neg hg, alookup, ih]

theorem addToGroup_map_fst (d : List (ℚ × List ℕ)) (t : ℚ) (n : ℕ) :
    (addToGroup d t n).map Prod.fst
      = if t ∈ d.map Prod.fst then d.map Prod.fst else d.map Prod.fst ++ [t] := by
  induction d with
  | nil => simp [addToGroup]
  | cons g rest ih =>
      by_cases hg : g.1 = t
      · simp [addToGroup, hg]
      · have hne : ¬ t = g.1 := fun hh => hg hh.symm
        simp only [addToGroup, if_neg hg, List.map_cons, ih]
        by_cases hm : t ∈ rest.map Prod.fst
        · rw [if_pos hm, if_pos (by simp [hm])]
        · rw [if_neg hm, if_neg (by simp [hm, hne])]
          simp

theorem onsetNotes_cons (ts : ℚ) (m : Msg) (rest : List (ℚ × Msg)) (t : ℚ) :
    onsetNotes ((ts, m) :: rest) t
      = (match m.kind with
         | MsgKind.noteOn n v => if 0 < v ∧ ts = t then [n] else []
         | _ => []) ++ onsetNotes rest t := by
  obtain ⟨time, kind⟩ := m
  cases kind with
  | noteOn n v =>
      by_cases hc : 0 < v ∧ ts = t
      · simp [onsetNotes, List.filterMap_cons, hc]
      · simp [onsetNotes, List.filterMap_cons, hc]
  | noteOff n => simp [onsetNotes, List.filterMap_cons]
  | controlChange c v => simp [onsetNotes, List.filterMap_cons]
  | setTempo t2 => simp [onsetNotes, List.filterMap_cons]
  | otherMeta => simp [onsetNotes, List.filterMap_cons]
  | otherMsg => simp [onsetNotes, List.filterMap_cons]

theorem onsetTimesRaw_cons (ts : ℚ) (m : Msg) (rest : List (ℚ × Msg)) :
    onsetTimesRaw ((ts, m) :: rest)
      = (match m.kind with
         | MsgKind.noteOn _ v => if 0 < v then [ts] else []
         | _ => []) ++ onsetTimesRaw rest := by
  obtain ⟨time, kind⟩ := m
  cases kind with
  | noteOn n v =>
      by_cases hv : 0 < v
      · simp [onsetTimesRaw, List.filterMap_cons, hv]
      · simp [onsetTimesRaw, List.filterMap_cons, hv]
  | noteOff n => simp [onsetTimesRaw, List.filterMap_cons]
  | controlChange c v => simp [onsetTimesRaw, List.filterMap_cons]
  | setTempo t2 => simp [onsetTimesRaw, List.filterMap_cons]
  | otherMeta => simp [onsetTimesRaw, List.filterMap_cons]
  | otherMsg => simp [onsetTimesRaw, List.filterMap_cons]

theorem notesByTimeFrom_alookup (evs : List (ℚ × Msg)) (d : List (ℚ × List ℕ)) (t : ℚ) :
    alookup (notesByTimeFrom d evs) t = mergeGroup (alookup d t) (onsetNotes evs t) := by
  induction evs generalizing d with
  | nil =>
      have honset : onsetNotes [] t = [] := rfl
      rw [honset]
      cases ho : alookup d t <;> simp [notesByTimeFrom, mergeGroup, ho]
  | cons e rest ih =>
      obtain ⟨ts, m⟩ := e
      rw [onsetNotes_cons]
      obtain ⟨time, kind⟩ := m
      cases kind with
      | noteOn n v =>
          by_cases hv : 0 < v
          · by_cases hts : ts = t
            · subst hts
              have hL : notesByTimeFrom d ((ts, ⟨time, MsgKind.noteOn n v⟩) :: rest)
                  = notesByTimeFrom (addToGroup d ts n) rest := by
                simp [notesByTimeFrom, hv]
              rw [hL, ih, alookup_addToGroup_self]
              simp only [hv, true_and, if_pos rfl]
              cases ho : alookup d ts <;>
                simp [mergeGroup, ho, List.append_assoc]
            · have hL : notesByTimeFrom d ((ts, ⟨time, MsgKind.noteOn n v⟩) :: rest)
                  = notesByTimeFrom (addToGroup d ts n) rest := by
                simp [notesByTimeFrom, hv]
              rw [hL, ih, alookup_addToGroup_ne d ts t n (fun hh => hts hh.symm)]
              simp [hv, hts]
          · have hL : notesByTimeFrom d ((ts, ⟨time, MsgKind.noteOn n v⟩) :: rest)
                = notesByTimeFrom d rest := by
              simp [notesByTimeFrom, hv]
            rw [hL, ih]
            simp [hv]
      | noteOff n =>
          have hL : notesByTimeFrom d ((ts, ⟨time, MsgKind.noteOff n⟩) :: rest)
              = notesByTimeFrom d rest := rfl
          rw [hL, ih]
          simp
      | controlChange c v =>
          have hL : notesByTimeFrom d ((ts, ⟨time, MsgKind.controlChange c v⟩) :: rest)
              = notesByTimeFrom d rest := rfl
          rw [hL, ih]
          simp
      | setTempo t2 =>
          have hL : notesByTimeFrom d ((ts, ⟨time, MsgKind.setTempo t2⟩) :: rest)
              = notesByTimeFrom d rest := rfl
          rw [hL, ih]
          simp
      | otherMeta =>
          have hL : notesByTimeFrom d ((ts, ⟨time, MsgKind.otherMeta⟩) :: rest)
              = notesByTimeFrom d rest := rfl
          rw [hL, ih]
          simp
      | otherMsg =>
          have hL : notesByTimeFrom d ((ts, ⟨time, MsgKind.otherMsg⟩) :: rest)
              = notesByTimeFrom d rest := rfl
          rw [hL, ih]
          simp

theorem dedupFirstFrom_congr (s1 s2 : List ℚ) (hs : ∀ x, x ∈ s1 ↔ x ∈ s2)
    (l : List ℚ) : dedupFirstFrom s1 l = dedupFirstFrom s2 l := by
  induction l generalizing s1 s2 with
  | nil => rfl
  | cons t rest ih =>
      by_cases hm : t ∈ s1
      · simp only [dedupFirstFrom, if_pos hm, if_pos ((hs t).1 hm)]
        exact ih s1 s2 hs
      · simp only [dedupFirstFrom, if_neg hm, if_neg (fun hh => hm ((hs t).2 hh))]
        refine congrArg (t :: ·) (ih (t :: s1) (t :: s2) ?_)
        intro x
        simp [hs x]

theorem notesByTimeFrom_map_fst (evs : List (ℚ × Msg)) (d : List (ℚ × List ℕ)) :
    (notesByTimeFrom d evs).map Prod.fst
      = d.map Prod.fst ++ dedupFirstFrom (d.map Prod.fst) (onsetTimesRaw evs) := by
  induction evs generalizing d with
  | nil => simp [notesByTimeFrom, onsetTimesRaw, dedupFirstFrom]
  | cons e rest ih =>
      obtain ⟨ts, m⟩ := e
      obtain ⟨time, kind⟩ := m
      cases kind with
      | noteOn n v =>
          by_cases hv : 0 < v
          · have hL : notesByTimeFrom d ((ts, ⟨time, MsgKind.noteOn n v⟩) :: rest)
                = notesByTimeFrom (addToGroup d ts n) rest := by
              simp [notesByTimeFrom, hv]
            have hR : onsetTimesRaw ((ts, ⟨time, MsgKind.noteOn n v⟩) :: rest)
                = ts :: onsetTimesRaw rest := by
              simp [onsetTimesRaw, List.filterMap_cons, hv]
            rw [hL, ih, hR, addToGroup_map_fst]
            by_cases hm : ts ∈ d.map Prod.fst
            · rw [if_pos hm]
              simp only [dedupFirstFrom, if_pos hm]
            · rw [if_neg hm]
              simp only [dedupFirstFrom, if_neg hm]
              rw [dedupFirstFrom_congr (d.map Prod.fst ++ [ts]) (ts :: d.map Prod.fst)
                (by intro x; simp; tauto) (onsetTimesRaw rest)]
              simp
          · have hL : notesByTimeFrom d ((ts, ⟨time, MsgKind.noteOn n v⟩) :: rest)
                = notesByTimeFrom d rest := by
              simp [notesByTimeFrom, hv]
            have hR : onsetTimesRaw ((ts, ⟨time, MsgKind.noteOn n v⟩) :: rest)
                = onsetTimesRaw rest := by
              simp [onsetTimesRaw, List.filterMap_cons, hv]
            rw [hL, ih, hR]
      | noteOff n =>
          have hL : notesByTimeFrom d ((ts, ⟨time, MsgKind.noteOff n⟩) :: rest)
              = notesByTimeFrom d rest := rfl
          have hR : onsetTimesRaw ((ts, ⟨time, MsgKind.noteOff n⟩) :: rest)
              = onsetTimesRaw rest := by
            simp [onsetTimesRaw, List.filterMap_cons]
          rw [hL, ih, hR]
      | controlChange c v =>
          have hL : notesByTimeFrom d ((ts, ⟨time, MsgKind.controlChange c v⟩) :: rest)
              = notesByTimeFrom d rest := rfl
          have hR : onsetTimesRaw ((ts, ⟨time, MsgKind.controlChange c v⟩) :: rest)
              = onsetTimesRaw rest := by
            simp [onsetTimesRaw, List.filterMap_cons]
          rw [hL, ih, hR]
      | setTempo t2 =>
          have hL : notesByTimeFrom d ((ts, ⟨time, MsgKind.setTempo t2⟩) :: rest)
              = notesByTimeFrom d rest := rfl
          have hR : onsetTimesRaw ((ts, ⟨time, MsgKind.setTempo t2⟩) :: rest)
              = onsetTimesRaw rest := by
            simp [onsetTimesRaw, List.filterMap_cons]
          rw [hL, ih, hR]
      | otherMeta =>
          have hL : notesByTimeFrom d ((ts, ⟨time, MsgKind.otherMeta⟩) :: rest)
              = notesByTimeFrom d rest := rfl
          have hR : onsetTimesRaw ((ts, ⟨time, MsgKind.otherMeta⟩) :: rest)
              = onsetTimesRaw rest := by
            simp [onsetTimesRaw, List.filterMap_cons]
          rw [hL, ih, hR]
      | otherMsg =>
          have hL : notesByTimeFrom d ((ts, ⟨time, MsgKind.otherMsg⟩) :: rest)
              = notesByTimeFrom d rest := rfl
          have hR : onsetTimesRaw ((ts, ⟨time, MsgKind.otherMsg⟩) :: rest)
              = onsetTimesRaw rest := by
            simp [onsetTimesRaw, List.filterMap_cons]
          rw [hL, ih, hR]

theorem mem_insertBy {α : Type} (lt : α → α → Bool) (x y : α) (l : List α) :
    y ∈ insertBy lt x l ↔ y = x ∨ y ∈ l := by
  induction l with
  | nil => simp [insertBy]
  | cons z rest ih =>
      by_cases hz : lt x z
      · simp [insertBy, hz]
      · simp [insertBy, hz, ih]
        tauto

theorem mem_sortBy {α : Type} (lt : α → α → Bool) (x : α) (l : List α) :
    x ∈ sortBy lt l ↔ x ∈ l := by
  have main : ∀ (l2 : List α) (acc : List α),
      x ∈ l2.foldl (fun acc2 z => insertBy lt z acc2) acc ↔ x ∈ acc ∨ x ∈ l2 := by
    intro l2
    induction l2 with
    | nil => intro acc; simp
    | cons z rest ih =>
        intro acc
        rw [List.foldl_cons, ih]
        rw [mem_insertBy]
        simp
        tauto
  rw [sortBy, main]
  simp

theorem filterMap_congr_mem {α β : Type} (f g : α → Option β) (l : List α)
    (h : ∀ a ∈ l, f a = g a) : l.filterMap f = l.filterMap g := by
  induction l with
  | nil => rfl
  | cons a rest ih =>
      rw [List.filterMap_cons, List.filterMap_cons, h a (List.mem_cons_self _ _),
        ih (fun b hb => h b (List.mem_cons_of_mem _ hb))]

/-- Claim C9: the derived-text export is a pure function of the compiled
events and the key map, and equals the spec-side description: group the
velocity-positive note-on events by exact onset timestamp, walk the
distinct timestamps in ascending order, emit a bare character for a
one-character group and one bracketed ascending-sorted cluster for a
larger group, omit groups with no mapped characters, and join the parts
with single spaces.  `generateText` is the source-side embedding
(`defaultdict` grouping, `sorted` keys) and `specGenerateText` the
spec-side one (filter-based grouping over deduplicated onset times);
they agree on every input. -/
theorem generateTextRefines (nm : List (ℕ × String)) (evs : List (ℚ × Msg)) :
    generateText nm evs = specGenerateText nm evs := by
  have hkeys : (notesByTime evs).map Prod.fst
      = dedupFirstFrom [] (onsetTimesRaw evs) := by
    have h := notesByTimeFrom_map_fst evs []
    simpa [notesByTime] using h
  rw [generateText, specGenerateText]
  apply congrArg (String.intercalate " ")
  rw [hkeys]
  apply filterMap_congr_mem
  intro t ht
  have ht2 : t ∈ (notesByTime evs).map Prod.fst := by
    rw [hkeys]
    exact (mem_sortBy qLt t _).1 ht
  have hne : alookup (notesByTime evs) t ≠ none :=
    (mem_map_fst_iff_alookup _ t).1 ht2
  have hl : alookup (notesByTime evs) t
      = (if onsetNotes evs t = [] then none else some (onsetNotes evs t)) :=
    notesByTimeFrom_alookup evs [] t
  by_cases hon : onsetNotes evs t = []
  · rw [hl, if_pos hon] at hne
    exact absurd rfl hne
  · rw [hl, if_neg hon]
    rfl

end MidiSim
